import Mathlib

/-!
Verification development for the minimum-cost network-flow solver in
src/include/NetworkFlow.hpp and src/src/NetworkFlow.cpp.

Modelling conventions:
- C++ double is modelled as the rationals; node indices (C++ int) as integers.
- Fallible write operations (which throw std::out_of_range) return
  Except String, carrying the thrown message; the throw happens before any
  mutation in the source, so an error carries no modified graph.
- The CPLEX engine is an external collaborator; its interaction with solve()
  is modelled by an outcome value covering exactly the branches the code
  distinguishes (solve succeeded, the classified failure statuses, or an
  exception raised during formulation/solving).
-/

set_option autoImplicit false

namespace NetFlow

/-- Directed edge of the network, mirroring struct Edge in NetworkFlow.hpp.
The C++ field names from and to are called from_ and to_ here, since both
words are reserved in Lean; cost keeps its name. -/
structure Edge where
  from_ : ℤ
  to_ : ℤ
  cost : ℚ
deriving DecidableEq

/-- State of class NetworkFlow (NetworkFlow.hpp): node count, dense balance
array and the edge list, in insertion order. -/
structure NetworkFlow where
  numNodes : ℤ
  balances : List ℚ
  edges : List Edge
deriving DecidableEq

/-- Constructor NetworkFlow(int n): n nodes, all balances zero, no edges. -/
def mkNetworkFlow (n : ℤ) : NetworkFlow :=
  { numNodes := n, balances := List.replicate n.toNat 0, edges := [] }

/-- NetworkFlow::getNumNodes. -/
def getNumNodes (g : NetworkFlow) : ℤ := g.numNodes

/-- NetworkFlow::getEdges. -/
def getEdges (g : NetworkFlow) : List Edge := g.edges

/-- NetworkFlow::setBalance: throws std::out_of_range (modelled as an error
value carrying the thrown message) when node < 1 or node > numNodes; the
check precedes the write, so on error the graph is untouched. -/
def setBalance (g : NetworkFlow) (node : ℤ) (b : ℚ) : Except String NetworkFlow :=
  if node < 1 ∨ node > g.numNodes then
    .error ("Node out of range: " ++ toString node)
  else
    .ok { g with balances := g.balances.set (node - 1).toNat b }

/-- NetworkFlow::addEdge: throws std::out_of_range (modelled as an error
value) when either endpoint is outside [1, numNodes]; otherwise appends the
edge. The check precedes the append. -/
def addEdge (g : NetworkFlow) (f t : ℤ) (c : ℚ) : Except String NetworkFlow :=
  if f < 1 ∨ f > g.numNodes ∨ t < 1 ∨ t > g.numNodes then
    .error ("Invalid node in edge: " ++ toString f ++ "->" ++ toString t)
  else
    .ok { g with edges := g.edges ++ [{ from_ := f, to_ := t, cost := c }] }

/-- NetworkFlow::getBalance: 0.0 for an out-of-range node, otherwise the
stored balance balances[node-1] (the vector read is modelled with getD;
inside [1, numNodes] the index is in bounds whenever the balance array has
its constructed length). -/
def getBalance (g : NetworkFlow) (node : ℤ) : ℚ :=
  if node < 1 ∨ node > g.numNodes then 0
  else g.balances.getD (node - 1).toNat 0

/-- The 1e-5 tolerance used by NetworkFlow::isBalanced. -/
def balanceTol : ℚ := 1 / 100000

/-- The 1e-6 flow threshold used in NetworkFlow::solve. -/
def flowTol : ℚ := 1 / 1000000

/-- NetworkFlow::isBalanced: the sum of all balances is below 1e-5 in
absolute value. -/
def isBalanced (g : NetworkFlow) : Bool :=
  decide (|g.balances.sum| < balanceTol)

/-- The per-edge endpoint check inlined in NetworkFlow::validate. -/
def edgeOutOfRange (g : NetworkFlow) (e : Edge) : Bool :=
  decide (e.from_ < 1 ∨ e.from_ > g.numNodes ∨ e.to_ < 1 ∨ e.to_ > g.numNodes)

/-- NetworkFlow::validate: balance first, then the first edge with an
out-of-range endpoint, in insertion order; "valid" when nothing fails. -/
def validate (g : NetworkFlow) : String :=
  if isBalanced g = false then
    "Supply and demand are not balanced."
  else
    match g.edges.find? (fun e => edgeOutOfRange g e) with
    | some e => "Invalid edge: " ++ toString e.from_ ++ "->" ++ toString e.to_
    | none => "valid"

/-- The variable map of NetworkFlow::solve, a std::map keyed by the ordered
pair (from, to). Variables are identified with the position of the edge whose
loop iteration created them; since assignment overwrites, the lookup yields
the index of the LAST edge carrying the given pair (as the map stands after
the whole creation loop, which is when the code reads it with .at). -/
def edgeVarIdx : List Edge → ℤ → ℤ → Option ℕ
  | [], _, _ => none
  | e :: es, f, t =>
    match edgeVarIdx es f t with
    | some i => some (i + 1)
    | none => if e.from_ = f ∧ e.to_ = t then some 0 else none

/-- Loop body of the conservation-constraint loop of NetworkFlow::solve for
one edge: a +1 term on the pair-keyed variable when the edge enters the node,
then a -1 term when it leaves it (a self-loop produces both). Each term is
(coefficient, variable index). -/
def netFlowChunk (edges : List Edge) (node : ℤ) (e : Edge) : List (ℚ × ℕ) :=
  (if e.to_ = node then
    match edgeVarIdx edges e.from_ e.to_ with
    | some i => [((1 : ℚ), i)]
    | none => []
  else []) ++
  (if e.from_ = node then
    match edgeVarIdx edges e.from_ e.to_ with
    | some i => [((-1 : ℚ), i)]
    | none => []
  else [])

/-- The terms of the netFlow expression that NetworkFlow::solve builds for one
node, iterating the edges in insertion order. -/
def netFlowTerms (edges : List Edge) (node : ℤ) : List (ℚ × ℕ) :=
  edges.flatMap (netFlowChunk edges node)

/-- The abstract linear program NetworkFlow::solve hands to CPLEX.
Every variable is continuous with lower bound 0 and no upper bound
(IloNumVar(env, 0, IloInfinity, ILOFLOAT)); vars counts them, one per edge.
objTerms are the (cost, variable) terms of the minimized objective, in
creation order; each constraint is (terms, rhs) read as: sum of terms = rhs. -/
structure LP where
  vars : ℕ
  objTerms : List (ℚ × ℕ)
  constraints : List (List (ℚ × ℕ) × ℚ)
deriving DecidableEq

/-- The LP built by NetworkFlow::solve before it calls cplex.solve(): one
variable and one objective term per edge in insertion order, then one
conservation constraint netFlow = -getBalance(node) per node 1..numNodes. -/
def formulate (g : NetworkFlow) : LP :=
  { vars := g.edges.length
    objTerms := g.edges.enum.map fun p => (p.2.cost, p.1)
    constraints := (List.range g.numNodes.toNat).map fun (k : ℕ) =>
      (netFlowTerms g.edges ((k : ℤ) + 1), -(getBalance g ((k : ℤ) + 1))) }

/-- Per-edge terms of the conservation constraint as the specification words
it ("sum of x_e over edges entering i minus sum of x_e over edges leaving
i"): the edge at position p.1 contributes its OWN variable p.1, regardless of
other edges sharing the (from, to) pair. Used to compare the code's
formulation against the spec. -/
def specChunk (node : ℤ) (p : ℕ × Edge) : List (ℚ × ℕ) :=
  (if p.2.to_ = node then [((1 : ℚ), p.1)] else []) ++
  (if p.2.from_ = node then [((-1 : ℚ), p.1)] else [])

/-- Conservation terms as the specification words them; see specChunk. -/
def specConservationTerms (edges : List Edge) (node : ℤ) : List (ℚ × ℕ) :=
  (List.enumFrom 0 edges).flatMap (specChunk node)

/-- Net coefficient of variable j in a list of linear terms. -/
def coeffOf (terms : List (ℚ × ℕ)) (j : ℕ) : ℚ :=
  (terms.map fun p => if p.2 = j then p.1 else 0).sum

/-- Result record struct Solution (NetworkFlow.hpp); the flows std::map is
modelled as a key-ordered-irrelevant association list written through
flowsInsert. The default constructor leaves solved = false, totalCost = 0.0,
empty flows and an empty status string. -/
structure Solution where
  solved : Bool
  totalCost : ℚ
  flows : List ((ℤ × ℤ) × ℚ)
  status : String
deriving DecidableEq

/-- Solution(): the defaults set at construction. -/
def defaultSolution : Solution :=
  { solved := false, totalCost := 0, flows := [], status := "" }

/-- Assignment result.flows[k] = v of std::map: replace the value when the
key is present, otherwise add the entry. -/
def flowsInsert : List ((ℤ × ℤ) × ℚ) → ℤ × ℤ → ℚ → List ((ℤ × ℤ) × ℚ)
  | [], k, v => [(k, v)]
  | p :: rest, k, v =>
    if p.1 = k then (k, v) :: rest else p :: flowsInsert rest k v

/-- Lookup in the flows map. -/
def flowsLookup (m : List ((ℤ × ℤ) × ℚ)) (k : ℤ × ℤ) : Option ℚ :=
  (m.find? fun p => p.1 = k).map fun p => p.2

/-- Outcome of the external CPLEX engine on the formulated LP, covering the
branches NetworkFlow::solve distinguishes: cplex.solve() returned true
(with the objective value and the solved value of every variable, indexed
like the variables), or it returned false with getStatus() classified as
Infeasible, Unbounded or anything else, or an IloException/std::exception
was raised during formulation or solving. -/
inductive EngineOutcome where
  | optimal (objVal : ℚ) (vals : ℕ → ℚ)
  | infeasible
  | unbounded
  | otherFail
  | iloExn (msg : String)
  | stdExn (msg : String)

/-- Flow extraction of the optimal branch of NetworkFlow::solve: for each
edge in insertion order, read the value of the pair-keyed variable
(cplex.getValue(edgeVars.at({e.from, e.to}))) and record it under the key
(from, to) when it exceeds 1e-6. The none branch of the lookup is
unreachable (every edge's pair was inserted; see edgeVarIdx_isSome). -/
def extractStep (edges : List Edge) (vals : ℕ → ℚ) (acc : List ((ℤ × ℤ) × ℚ))
    (e : Edge) : List ((ℤ × ℤ) × ℚ) :=
  match edgeVarIdx edges e.from_ e.to_ with
  | some i => if vals i > flowTol then flowsInsert acc (e.from_, e.to_) (vals i) else acc
  | none => acc

/-- See extractStep: the flow-extraction loop of the optimal branch. -/
def extractFlows (edges : List Edge) (vals : ℕ → ℚ) : List ((ℤ × ℤ) × ℚ) :=
  edges.foldl (extractStep edges vals) []

/-- NetworkFlow::solve: builds formulate g, dispatches it to the engine, and
interprets the outcome into a Solution. The try/catch of the source makes
this a total function: engine exceptions become a status message, prefixed by
"CPLEX Exception: " for IloException and "STD Exception: " for
std::exception, on top of the default-constructed Solution. -/
def solve (g : NetworkFlow) (outcome : EngineOutcome) : Solution :=
  match outcome with
  | .optimal objVal vals =>
    { solved := true
      totalCost := objVal
      flows := extractFlows g.edges vals
      status := "Optimal" }
  | .infeasible => { defaultSolution with status := "Infeasible" }
  | .unbounded => { defaultSolution with status := "Unbounded" }
  | .otherFail => { defaultSolution with status := "No solution found" }
  | .iloExn m => { defaultSolution with status := "CPLEX Exception: " ++ m }
  | .stdExn m => { defaultSolution with status := "STD Exception: " ++ m }

/-- Two parallel edges 1 -> 2 (costs 3 and 1), supply 10 at node 1. -/
def gParallel : NetworkFlow :=
  { numNodes := 2, balances := [10, -10], edges := [⟨1, 2, 3⟩, ⟨1, 2, 1⟩] }

/-- Two parallel edges 2 -> 1, all balances zero. -/
def gParallelIn : NetworkFlow :=
  { numNodes := 2, balances := [0, 0], edges := [⟨2, 1, 5⟩, ⟨2, 1, 7⟩] }

/-- Balanced two-node graph with a single edge 1 -> 2 of cost 3. -/
def gSimple : NetworkFlow :=
  { numNodes := 2, balances := [10, -10], edges := [⟨1, 2, 3⟩] }

/-- Graph with pairwise-distinct edge pairs including a self-loop at node 2. -/
def gSelfLoop : NetworkFlow :=
  { numNodes := 2, balances := [10, -10], edges := [⟨1, 2, 3⟩, ⟨2, 2, 4⟩] }

/-- Unbalanced graph (sum of balances 7). -/
def gUnbalanced : NetworkFlow :=
  { numNodes := 2, balances := [10, -3], edges := [] }

/-- Balanced graph whose second edge is the first out-of-range one. -/
def gBadEdge : NetworkFlow :=
  { numNodes := 2, balances := [0, 0], edges := [⟨1, 2, 1⟩, ⟨0, 5, 1⟩, ⟨3, 1, 1⟩] }

/-- setBalance succeeds exactly on an in-range node and then only rewrites
the addressed balance slot. -/
theorem setBalance_ok_iff {g g' : NetworkFlow} {node : ℤ} {b : ℚ} :
    setBalance g node b = .ok g' ↔
      (1 ≤ node ∧ node ≤ g.numNodes) ∧
      g' = { g with balances := g.balances.set (node - 1).toNat b } := by
  unfold setBalance
  by_cases h : node < 1 ∨ node > g.numNodes
  · rw [if_pos h]
    constructor
    · intro hc; cases hc
    · rintro ⟨⟨h1, h2⟩, _⟩; omega
  · rw [if_neg h]
    push_neg at h
    constructor
    · intro hc
      injection hc with hc
      exact ⟨⟨by omega, by omega⟩, hc.symm⟩
    · rintro ⟨_, rfl⟩; rfl

/-- setBalance on an out-of-range node throws the out_of_range message. -/
theorem setBalance_error {g : NetworkFlow} {node : ℤ} (b : ℚ)
    (h : node < 1 ∨ node > g.numNodes) :
    setBalance g node b = .error ("Node out of range: " ++ toString node) := by
  unfold setBalance; rw [if_pos h]

/-- addEdge succeeds exactly on in-range endpoints and then only appends the
new edge. -/
theorem addEdge_ok_iff {g g' : NetworkFlow} {f t : ℤ} {c : ℚ} :
    addEdge g f t c = .ok g' ↔
      (1 ≤ f ∧ f ≤ g.numNodes ∧ 1 ≤ t ∧ t ≤ g.numNodes) ∧
      g' = { g with edges := g.edges ++ [{ from_ := f, to_ := t, cost := c }] } := by
  unfold addEdge
  by_cases h : f < 1 ∨ f > g.numNodes ∨ t < 1 ∨ t > g.numNodes
  · rw [if_pos h]
    constructor
    · intro hc; cases hc
    · rintro ⟨⟨h1, h2, h3, h4⟩, _⟩; omega
  · rw [if_neg h]
    push_neg at h
    constructor
    · intro hc
      injection hc with hc
      exact ⟨⟨by omega, by omega, by omega, by omega⟩, hc.symm⟩
    · rintro ⟨_, rfl⟩; rfl

/-- addEdge with an out-of-range endpoint throws the invalid-edge message. -/
theorem addEdge_error {g : NetworkFlow} {f t : ℤ} (c : ℚ)
    (h : f < 1 ∨ f > g.numNodes ∨ t < 1 ∨ t > g.numNodes) :
    addEdge g f t c =
      .error ("Invalid node in edge: " ++ toString f ++ "->" ++ toString t) := by
  unfold addEdge; rw [if_pos h]

/-- C1 (code bug, exhibited at gParallel): the claim — and the formulation
stated in the solve() documentation block — give every edge its own variable
appearing in the objective and in the conservation constraints of its
endpoints. The pair-keyed std::map of the code overwrites the variable of an
earlier parallel edge, so at gParallel (edges 0 and 1 both 1 -> 2) variable 0
carries cost 3 in the objective yet occurs in no constraint, while variable 1
occurs twice in each endpoint constraint. -/
theorem parallel_edge_var_dropped_from_constraints :
    (formulate gParallel).vars = 2 ∧
    (formulate gParallel).objTerms = [(3, 0), (1, 1)] ∧
    (formulate gParallel).constraints =
      [([(-1, 1), (-1, 1)], -10), ([(1, 1), (1, 1)], 10)] ∧
    ∀ c ∈ (formulate gParallel).constraints, ∀ p ∈ c.1, p.2 ≠ 0 := by
  decide

/-- C2 counterexample: at gParallelIn both edges enter node 1, so the claimed
node-1 constraint sums both edge variables (x0 and x1). The code's constraint
references variable 1 twice and variable 0 not at all, so it is not the
claimed per-edge sum. -/
theorem conservation_terms_not_per_edge_cex :
    (formulate gParallelIn).constraints[0]? = some ([(1, 1), (1, 1)], 0) ∧
    coeffOf (netFlowTerms gParallelIn.edges 1) 0 = 0 ∧
    coeffOf (specConservationTerms gParallelIn.edges 1) 0 = 1 ∧
    netFlowTerms gParallelIn.edges 1 ≠ specConservationTerms gParallelIn.edges 1 := by
  refine ⟨by decide, ?_, ?_, by decide⟩ <;>
    norm_num [coeffOf, netFlowTerms, netFlowChunk, specConservationTerms,
      specChunk, edgeVarIdx, gParallelIn, List.enumFrom]

/-- C4: setBalance fails exactly on a node outside [1, N] (in particular on
0 and N+1) and addEdge fails exactly when an endpoint lies outside [1, N];
each failure carries the thrown message, and a successful call changes
nothing but the addressed balance slot (respectively appends the one edge),
so a failing call leaves node count, balances and edges untouched. -/
theorem write_ops_out_of_range (g : NetworkFlow) (node f t : ℤ) (b c : ℚ)
    (_hN : 1 ≤ g.numNodes) :
    ((∃ g', setBalance g node b = .ok g') ↔ 1 ≤ node ∧ node ≤ g.numNodes) ∧
    (¬(1 ≤ node ∧ node ≤ g.numNodes) →
      setBalance g node b = .error ("Node out of range: " ++ toString node)) ∧
    setBalance g 0 b = .error ("Node out of range: " ++ toString (0 : ℤ)) ∧
    setBalance g (g.numNodes + 1) b =
      .error ("Node out of range: " ++ toString (g.numNodes + 1)) ∧
    ((∃ g', addEdge g f t c = .ok g') ↔
      1 ≤ f ∧ f ≤ g.numNodes ∧ 1 ≤ t ∧ t ≤ g.numNodes) ∧
    (¬(1 ≤ f ∧ f ≤ g.numNodes ∧ 1 ≤ t ∧ t ≤ g.numNodes) →
      addEdge g f t c =
        .error ("Invalid node in edge: " ++ toString f ++ "->" ++ toString t)) ∧
    (∀ g', setBalance g node b = .ok g' →
      g'.numNodes = g.numNodes ∧ g'.edges = g.edges ∧
      g'.balances = g.balances.set (node - 1).toNat b) ∧
    (∀ g', addEdge g f t c = .ok g' →
      g'.numNodes = g.numNodes ∧ g'.balances = g.balances ∧
      g'.edges = g.edges ++ [{ from_ := f, to_ := t, cost := c }]) := by
  refine ⟨?_, ?_, ?_, ?_, ?_, ?_, ?_, ?_⟩
  · constructor
    · rintro ⟨g', hg'⟩; exact (setBalance_ok_iff.mp hg').1
    · intro h; exact ⟨_, setBalance_ok_iff.mpr ⟨h, rfl⟩⟩
  · intro h; exact setBalance_error b (by omega)
  · exact setBalance_error b (by omega)
  · exact setBalance_error b (by omega)
  · constructor
    · rintro ⟨g', hg'⟩; exact (addEdge_ok_iff.mp hg').1
    · intro h; exact ⟨_, addEdge_ok_iff.mpr ⟨h, rfl⟩⟩
  · intro h; exact addEdge_error c (by omega)
  · intro g' hg'
    obtain ⟨-, rfl⟩ := setBalance_ok_iff.mp hg'
    exact ⟨rfl, rfl, rfl⟩
  · intro g' hg'
    obtain ⟨-, rfl⟩ := addEdge_ok_iff.mp hg'
    exact ⟨rfl, rfl, rfl⟩

/-- Witness for write_ops_out_of_range at gSimple (N = 2): node 0 fails with
the out-of-range message, and edge 1 -> 2 is accepted. -/
theorem write_ops_out_of_range_witness :
    setBalance gSimple 0 5 = .error "Node out of range: 0" ∧
    ∃ g', addEdge gSimple 1 2 4 = .ok g' := by
  have h := write_ops_out_of_range gSimple 0 1 2 5 4 (by decide)
  exact ⟨h.2.2.1, h.2.2.2.2.1.mpr (by decide)⟩

/-- C5: solve never propagates a fault. An IloException and a std::exception
raised during formulation or solving each yield the default-constructed
Solution (solved = false) whose status embeds the fault's description behind
a prefix, and the two prefixes keep the two fault kinds apart. -/
theorem solve_absorbs_engine_faults (g : NetworkFlow) (m m2 : String) :
    solve g (.iloExn m) =
      { solved := false, totalCost := 0, flows := [],
        status := "CPLEX Exception: " ++ m } ∧
    solve g (.stdExn m2) =
      { solved := false, totalCost := 0, flows := [],
        status := "STD Exception: " ++ m2 } ∧
    "CPLEX Exception: " ++ m ≠ "STD Exception: " ++ m2 := by
  refine ⟨rfl, rfl, ?_⟩
  intro h
  have h2 : ("CPLEX Exception: " ++ m).data = ("STD Exception: " ++ m2).data := by
    rw [h]
  rw [String.data_append, String.data_append] at h2
  simp at h2

/-- C6: the non-optimal engine classifications map to solved = false with
status "Infeasible", "Unbounded" and "No solution found" respectively, on
top of the default-constructed Solution. -/
theorem solve_nonoptimal_classification (g : NetworkFlow) :
    solve g .infeasible =
      { solved := false, totalCost := 0, flows := [], status := "Infeasible" } ∧
    solve g .unbounded =
      { solved := false, totalCost := 0, flows := [], status := "Unbounded" } ∧
    solve g .otherFail =
      { solved := false, totalCost := 0, flows := [],
        status := "No solution found" } :=
  ⟨rfl, rfl, rfl⟩

/-- C8: getBalance is total: it returns 0 outside [1, numNodes] and the
stored balance inside, while setBalance (the write path) fails on the same
out-of-range nodes. -/
theorem getBalance_lenient_read (g : NetworkFlow) (node : ℤ) :
    (node < 1 ∨ node > g.numNodes →
      getBalance g node = 0 ∧
      ∀ b, setBalance g node b = .error ("Node out of range: " ++ toString node)) ∧
    (1 ≤ node → node ≤ g.numNodes →
      getBalance g node = g.balances.getD (node - 1).toNat 0) := by
  constructor
  · intro h
    exact ⟨by unfold getBalance; rw [if_pos h], fun b => setBalance_error b h⟩
  · intro h1 h2
    unfold getBalance
    rw [if_neg (by omega)]

/-- Witness for getBalance_lenient_read at gSimple: node 5 reads 0 while the
write path fails, and node 1 reads its stored balance 10. -/
theorem getBalance_lenient_read_witness :
    getBalance gSimple 5 = 0 ∧
    setBalance gSimple 5 7 = .error "Node out of range: 5" ∧
    getBalance gSimple 1 = 10 := by
  have hout := (getBalance_lenient_read gSimple 5).1 (by decide)
  have hin := (getBalance_lenient_read gSimple 1).2 (by decide) (by decide)
  refine ⟨hout.1, ?_, ?_⟩
  · rw [hout.2 7]; congr 1
  · rw [hin]; decide

/-- C10: every Solution that solve returns with solved = false keeps the
constructor defaults: totalCost 0 and an empty flows map. -/
theorem unsolved_solution_keeps_defaults (g : NetworkFlow) (o : EngineOutcome)
    (h : (solve g o).solved = false) :
    (solve g o).totalCost = 0 ∧ (solve g o).flows = [] := by
  cases o <;> first
    | exact ⟨rfl, rfl⟩
    | simp [solve] at h

/-- Witness for unsolved_solution_keeps_defaults on an infeasible outcome. -/
theorem unsolved_solution_keeps_defaults_witness :
    (solve gSimple .infeasible).totalCost = 0 ∧
    (solve gSimple .infeasible).flows = [] :=
  unsolved_solution_keeps_defaults gSimple .infeasible rfl

/-- isBalanced as the inequality it decides. -/
theorem isBalanced_iff {g : NetworkFlow} :
    isBalanced g = true ↔ |g.balances.sum| < balanceTol := by
  simp [isBalanced]

/-- The invalid-edge message of validate never collides with "valid". -/
theorem invalidEdgeMsg_ne_valid (a b : String) :
    "Invalid edge: " ++ a ++ "->" ++ b ≠ "valid" := by
  intro h
  have h2 := congrArg String.data h
  rw [String.data_append, String.data_append, String.data_append] at h2
  simp at h2

/-- find? returns the element at the first position satisfying the
predicate. -/
theorem find?_eq_of_first {α : Type} (p : α → Bool) :
    ∀ (l : List α) (i : ℕ) (e : α), l[i]? = some e → p e = true →
      (∀ j ej, j < i → l[j]? = some ej → p ej = false) →
      l.find? p = some e := by
  intro l
  induction l with
  | nil => intro i e h _ _; simp at h
  | cons a l ih =>
    intro i e h hp hmin
    cases i with
    | zero =>
      simp only [List.getElem?_cons_zero, Option.some.injEq] at h
      subst h
      exact List.find?_cons_of_pos l hp
    | succ i =>
      have ha : p a = false := hmin 0 a (Nat.succ_pos i) (by simp)
      rw [List.find?_cons_of_neg l (by simp [ha])]
      exact ih i e (by simpa using h) hp
        (fun j ej hj hje => hmin (j + 1) ej (by omega) (by simpa using hje))

/-- C3: validate returns "valid" exactly when the balances sum below the
1e-5 tolerance and every edge endpoint lies in [1, numNodes]; an unbalanced
graph gets the balance message regardless of its edges; a balanced graph
with an out-of-range edge gets the message of the first such edge in
insertion order. -/
theorem validate_characterization (g : NetworkFlow) :
    (validate g = "valid" ↔
      |g.balances.sum| < balanceTol ∧
      ∀ e ∈ g.edges,
        1 ≤ e.from_ ∧ e.from_ ≤ g.numNodes ∧ 1 ≤ e.to_ ∧ e.to_ ≤ g.numNodes) ∧
    (¬|g.balances.sum| < balanceTol →
      validate g = "Supply and demand are not balanced.") ∧
    (|g.balances.sum| < balanceTol →
      ∀ (i : ℕ) (e : Edge), g.edges[i]? = some e → edgeOutOfRange g e = true →
        (∀ (j : ℕ) (ej : Edge), j < i → g.edges[j]? = some ej →
          edgeOutOfRange g ej = false) →
        validate g =
          "Invalid edge: " ++ toString e.from_ ++ "->" ++ toString e.to_) := by
  have hrange : ∀ e : Edge, edgeOutOfRange g e = false ↔
      (1 ≤ e.from_ ∧ e.from_ ≤ g.numNodes ∧ 1 ≤ e.to_ ∧ e.to_ ≤ g.numNodes) := by
    intro e
    simp only [edgeOutOfRange, decide_eq_false_iff_not]
    constructor
    · intro h; push_neg at h; omega
    · intro h; push_neg; omega
  refine ⟨?_, ?_, ?_⟩
  · constructor
    · intro hv
      by_cases hb : isBalanced g = true
      · refine ⟨isBalanced_iff.mp hb, ?_⟩
        intro e he
        unfold validate at hv
        rw [if_neg (by simp [hb])] at hv
        cases hfind : g.edges.find? (fun e => edgeOutOfRange g e) with
        | some e2 =>
          rw [hfind] at hv
          exact absurd hv (invalidEdgeMsg_ne_valid _ _)
        | none =>
          have := List.find?_eq_none.mp hfind e he
          exact (hrange e).mp (by simpa using this)
      · rw [Bool.not_eq_true] at hb
        unfold validate at hv
        rw [if_pos hb] at hv
        exact absurd hv (by decide)
    · rintro ⟨hb, hall⟩
      unfold validate
      rw [if_neg (by simp [isBalanced_iff.mpr hb])]
      have hfind : g.edges.find? (fun e => edgeOutOfRange g e) = none :=
        List.find?_eq_none.mpr fun e he => by
          simp [(hrange e).mpr (hall e he)]
      rw [hfind]
  · intro hb
    unfold validate
    rw [if_pos (by simp [isBalanced, hb])]
  · intro hb i e hi hp hmin
    unfold validate
    rw [if_neg (by simp [isBalanced_iff.mpr hb])]
    rw [find?_eq_of_first _ g.edges i e hi hp hmin]

/-- Witness for validate_characterization: a balanced in-range graph is
"valid", an unbalanced one gets the balance message, and a balanced graph
whose second edge is the first invalid one gets that edge's message. -/
theorem validate_characterization_witness :
    validate gSimple = "valid" ∧
    validate gUnbalanced = "Supply and demand are not balanced." ∧
    validate gBadEdge = "Invalid edge: 0->5" := by
  refine ⟨?_, ?_, ?_⟩
  · exact (validate_characterization gSimple).1.mpr
      ⟨by norm_num [gSimple, balanceTol], by decide⟩
  · exact (validate_characterization gUnbalanced).2.1
      (by norm_num [gUnbalanced, balanceTol])
  · have h := (validate_characterization gBadEdge).2.2
      (by norm_num [gBadEdge, balanceTol]) 1 ⟨0, 5, 1⟩ (by decide) (by decide)
      (by
        intro j ej hj hje
        have hj0 : j = 0 := by omega
        subst hj0
        simp only [gBadEdge, List.getElem?_cons_zero, Option.some.injEq] at hje
        subst hje
        decide)
    rw [h]
    decide

/-- Head/tail behaviour of flowsLookup. -/
theorem flowsLookup_cons (p : (ℤ × ℤ) × ℚ) (m : List ((ℤ × ℤ) × ℚ))
    (k2 : ℤ × ℤ) :
    flowsLookup (p :: m) k2 = if p.1 = k2 then some p.2 else flowsLookup m k2 := by
  by_cases h : p.1 = k2
  · rw [if_pos h]
    simp [flowsLookup, List.find?_cons_of_pos, h]
  · rw [if_neg h]
    simp [flowsLookup, List.find?_cons_of_neg, h]

/-- Unfolding equation of flowsInsert on a cons cell. -/
theorem flowsInsert_cons (p : (ℤ × ℤ) × ℚ) (m : List ((ℤ × ℤ) × ℚ))
    (k : ℤ × ℤ) (v : ℚ) :
    flowsInsert (p :: m) k v =
      if p.1 = k then (k, v) :: m else p :: flowsInsert m k v := rfl

/-- Writing a key makes it readable with the written value. -/
theorem flowsLookup_insert_self (m : List ((ℤ × ℤ) × ℚ)) (k : ℤ × ℤ) (v : ℚ) :
    flowsLookup (flowsInsert m k v) k = some v := by
  induction m with
  | nil =>
    rw [show flowsInsert [] k v = [(k, v)] from rfl, flowsLookup_cons,
      if_pos rfl]
  | cons p m ih =>
    rw [flowsInsert_cons]
    by_cases hp : p.1 = k
    · rw [if_pos hp, flowsLookup_cons, if_pos rfl]
    · rw [if_neg hp, flowsLookup_cons, if_neg hp, ih]

/-- Writing one key leaves every other key's lookup unchanged. -/
theorem flowsLookup_insert_other {m : List ((ℤ × ℤ) × ℚ)} {k k2 : ℤ × ℤ}
    {v : ℚ} (h : k2 ≠ k) :
    flowsLookup (flowsInsert m k v) k2 = flowsLookup m k2 := by
  induction m with
  | nil =>
    rw [show flowsInsert [] k v = [(k, v)] from rfl, flowsLookup_cons,
      if_neg (Ne.symm h)]
  | cons p m ih =>
    rw [flowsInsert_cons]
    by_cases hp : p.1 = k
    · rw [if_pos hp, flowsLookup_cons, flowsLookup_cons,
        if_neg (Ne.symm h), if_neg (by rw [hp]; exact Ne.symm h)]
    · rw [if_neg hp, flowsLookup_cons, flowsLookup_cons]
      by_cases hp2 : p.1 = k2
      · rw [if_pos hp2, if_pos hp2]
      · rw [if_neg hp2, if_neg hp2, ih]

/-- Once the extraction loop has recorded the pair-keyed value for key k,
the rest of the loop keeps it: any later edge with the same pair re-reads
the same variable and writes the same value. -/
theorem extract_foldl_preserve {edges : List Edge} {vals : ℕ → ℚ}
    {k : ℤ × ℤ} {i0 : ℕ} (hi : edgeVarIdx edges k.1 k.2 = some i0) :
    ∀ (l : List Edge) (acc : List ((ℤ × ℤ) × ℚ)),
      flowsLookup acc k = some (vals i0) →
      flowsLookup (l.foldl (extractStep edges vals) acc) k = some (vals i0) := by
  intro l
  induction l with
  | nil => intro acc h; exact h
  | cons e l ih =>
    intro acc h
    rw [List.foldl_cons]
    apply ih
    by_cases hk : (e.from_, e.to_) = k
    · have hif : edgeVarIdx edges e.from_ e.to_ = some i0 := by
        obtain ⟨k1, k2⟩ := k
        obtain ⟨h1, h2⟩ := Prod.mk.injEq .. ▸ hk
        rw [h1, h2]; exact hi
      simp only [extractStep, hif]
      by_cases hv : vals i0 > flowTol
      · rw [if_pos hv, hk, flowsLookup_insert_self]
      · rw [if_neg hv]; exact h
    · cases hlook : edgeVarIdx edges e.from_ e.to_ with
      | none => simp only [extractStep, hlook]; exact h
      | some i2 =>
        simp only [extractStep, hlook]
        by_cases hv : vals i2 > flowTol
        · rw [if_pos hv, flowsLookup_insert_other (Ne.symm hk)]; exact h
        · rw [if_neg hv]; exact h

/-- If the pair-keyed value for key k does not exceed the threshold, the
extraction loop never records k. -/
theorem extract_foldl_none {edges : List Edge} {vals : ℕ → ℚ} {k : ℤ × ℤ}
    (hsmall : ∀ i, edgeVarIdx edges k.1 k.2 = some i → ¬vals i > flowTol) :
    ∀ (l : List Edge) (acc : List ((ℤ × ℤ) × ℚ)),
      flowsLookup acc k = none →
      flowsLookup (l.foldl (extractStep edges vals) acc) k = none := by
  intro l
  induction l with
  | nil => intro acc h; exact h
  | cons e l ih =>
    intro acc h
    rw [List.foldl_cons]
    apply ih
    by_cases hk : (e.from_, e.to_) = k
    · cases hlook : edgeVarIdx edges e.from_ e.to_ with
      | none => simp only [extractStep, hlook]; exact h
      | some i2 =>
        have hik : edgeVarIdx edges k.1 k.2 = some i2 := by
          obtain ⟨k1, k2⟩ := k
          obtain ⟨h1, h2⟩ := Prod.mk.injEq .. ▸ hk
          rw [← h1, ← h2]; exact hlook
        simp only [extractStep, hlook]
        rw [if_neg (hsmall i2 hik)]
        exact h
    · cases hlook : edgeVarIdx edges e.from_ e.to_ with
      | none => simp only [extractStep, hlook]; exact h
      | some i2 =>
        simp only [extractStep, hlook]
        by_cases hv : vals i2 > flowTol
        · rw [if_pos hv, flowsLookup_insert_other (Ne.symm hk)]; exact h
        · rw [if_neg hv]; exact h

/-- If some edge of the remaining loop list carries key k and the pair-keyed
value exceeds the threshold, the extraction loop records it. -/
theorem extract_foldl_write {edges : List Edge} {vals : ℕ → ℚ} {k : ℤ × ℤ}
    {i0 : ℕ} (hi : edgeVarIdx edges k.1 k.2 = some i0)
    (hv : vals i0 > flowTol) :
    ∀ (l : List Edge) (acc : List ((ℤ × ℤ) × ℚ)),
      (∃ e ∈ l, (e.from_, e.to_) = k) →
      flowsLookup (l.foldl (extractStep edges vals) acc) k = some (vals i0) := by
  intro l
  induction l with
  | nil => rintro acc ⟨e, he, -⟩; cases he
  | cons e l ih =>
    rintro acc ⟨e2, he2, hk2⟩
    rw [List.foldl_cons]
    by_cases hk : (e.from_, e.to_) = k
    · apply extract_foldl_preserve hi
      have hif : edgeVarIdx edges e.from_ e.to_ = some i0 := by
        obtain ⟨k1, k2⟩ := k
        obtain ⟨h1, h2⟩ := Prod.mk.injEq .. ▸ hk
        rw [h1, h2]; exact hi
      simp only [extractStep, hif]
      rw [if_pos hv, hk, flowsLookup_insert_self]
    · apply ih
      rcases List.mem_cons.mp he2 with rfl | hmem
      · exact absurd hk2 hk
      · exact ⟨e2, hmem, hk2⟩

/-- Graphs reachable through the public interface: construct once, then
mutate only by successful setBalance and addEdge calls. -/
inductive Reachable : NetworkFlow → Prop where
  | init (n : ℤ) : Reachable (mkNetworkFlow n)
  | step_setBalance {g g' : NetworkFlow} (node : ℤ) (b : ℚ) :
      Reachable g → setBalance g node b = .ok g' → Reachable g'
  | step_addEdge {g g' : NetworkFlow} (f t : ℤ) (c : ℚ) :
      Reachable g → addEdge g f t c = .ok g' → Reachable g'

/-- C9: every reachable graph has all edge endpoints inside [1, numNodes]
(addEdge guards them and nothing else touches the edge list), so the
invalid-edge branch of validate is unreachable: on reachable graphs
validate is "valid" exactly when isBalanced holds and otherwise returns the
balance message. -/
theorem reachable_edges_in_range (g : NetworkFlow) (hg : Reachable g) :
    (∀ e ∈ g.edges,
      1 ≤ e.from_ ∧ e.from_ ≤ g.numNodes ∧ 1 ≤ e.to_ ∧ e.to_ ≤ g.numNodes) ∧
    (validate g = "valid" ↔ isBalanced g = true) ∧
    (isBalanced g = false →
      validate g = "Supply and demand are not balanced.") := by
  have hrange : ∀ e ∈ g.edges,
      1 ≤ e.from_ ∧ e.from_ ≤ g.numNodes ∧ 1 ≤ e.to_ ∧ e.to_ ≤ g.numNodes := by
    induction hg with
    | init n => intro e he; cases he
    | step_setBalance node b hg2 hok ih =>
      obtain ⟨-, rfl⟩ := setBalance_ok_iff.mp hok
      exact ih
    | step_addEdge f t c hg2 hok ih =>
      obtain ⟨⟨h1, h2, h3, h4⟩, rfl⟩ := addEdge_ok_iff.mp hok
      intro e he
      rcases List.mem_append.mp he with hmem | hmem
      · exact ih e hmem
      · rcases List.mem_singleton.mp hmem with rfl
        exact ⟨h1, h2, h3, h4⟩
  have hfind : g.edges.find? (fun e => edgeOutOfRange g e) = none := by
    apply List.find?_eq_none.mpr
    intro e he
    have h := hrange e he
    simp only [edgeOutOfRange]
    simp only [decide_eq_true_eq]
    push_neg
    omega
  refine ⟨hrange, ?_, ?_⟩
  · constructor
    · intro hv
      by_contra hb
      rw [Bool.not_eq_true] at hb
      unfold validate at hv
      rw [if_pos hb] at hv
      exact absurd hv (by decide)
    · intro hb
      unfold validate
      rw [if_neg (by simp [hb]), hfind]
  · intro hb
    unfold validate
    rw [if_pos hb]

/-- Witness for reachable_edges_in_range: gSimple arises from
NetworkFlow(2), setBalance(1,10), setBalance(2,-10), addEdge(1,2,3), and
validates to "valid". -/
theorem reachable_edges_in_range_witness : validate gSimple = "valid" := by
  have hreach : Reachable gSimple :=
    Reachable.step_addEdge 1 2 3
      (Reachable.step_setBalance 2 (-10)
        (Reachable.step_setBalance 1 10 (Reachable.init 2) (by rfl))
        (by rfl))
      (by rfl)
  exact (reachable_edges_in_range gSimple hreach).2.1.mpr
    (by simp [isBalanced, gSimple, balanceTol])

/-- A pair absent from the edge list has no variable in the map. -/
theorem edgeVarIdx_eq_none {edges : List Edge} {f t : ℤ}
    (h : (f, t) ∉ edges.map fun e => (e.from_, e.to_)) :
    edgeVarIdx edges f t = none := by
  induction edges with
  | nil => rfl
  | cons e es ih =>
    simp only [List.map_cons, List.mem_cons, not_or] at h
    obtain ⟨h1, h2⟩ := h
    simp only [edgeVarIdx, ih h2]
    rw [if_neg]
    rintro ⟨hf, ht⟩
    exact h1 (by rw [hf, ht])

/-- With pairwise-distinct (from, to) pairs, the variable map sends each
edge's pair to that edge's own position. -/
theorem edgeVarIdx_append_last {pre suf : List Edge} {e : Edge}
    (hkeys : ((pre ++ e :: suf).map fun x => (x.from_, x.to_)).Nodup) :
    edgeVarIdx (pre ++ e :: suf) e.from_ e.to_ = some pre.length := by
  induction pre with
  | nil =>
    simp only [List.nil_append, List.map_cons] at hkeys ⊢
    have hnot : (e.from_, e.to_) ∉ suf.map fun x => (x.from_, x.to_) :=
      (List.nodup_cons.mp hkeys).1
    simp only [edgeVarIdx, edgeVarIdx_eq_none hnot]
    simp
  | cons p pre ih =>
    have hkeys2 : ((pre ++ e :: suf).map fun x => (x.from_, x.to_)).Nodup := by
      rw [List.cons_append, List.map_cons] at hkeys
      exact (List.nodup_cons.mp hkeys).2
    rw [List.cons_append]
    simp only [edgeVarIdx, ih hkeys2]
    rfl

/-- With pairwise-distinct (from, to) pairs the code's conservation terms
coincide with the specification's per-edge terms. -/
theorem netFlowTerms_eq_spec {edges : List Edge}
    (hkeys : (edges.map fun e => (e.from_, e.to_)).Nodup) (node : ℤ) :
    netFlowTerms edges node = specConservationTerms edges node := by
  suffices h : ∀ pre suf : List Edge, pre ++ suf = edges →
      suf.flatMap (netFlowChunk edges node) =
        (List.enumFrom pre.length suf).flatMap (specChunk node) by
    have h2 := h [] edges rfl
    simpa [netFlowTerms, specConservationTerms] using h2
  intro pre suf
  induction suf generalizing pre with
  | nil => intro _; rfl
  | cons e suf ih =>
    intro heq
    have hvar : edgeVarIdx edges e.from_ e.to_ = some pre.length := by
      subst heq; exact edgeVarIdx_append_last hkeys
    have htail : suf.flatMap (netFlowChunk edges node) =
        (List.enumFrom (pre.length + 1) suf).flatMap (specChunk node) := by
      have h3 := ih (pre ++ [e]) (by rw [← heq, List.append_assoc]; rfl)
      simpa using h3
    rw [List.flatMap_cons,
      show List.enumFrom pre.length (e :: suf) =
        (pre.length, e) :: List.enumFrom (pre.length + 1) suf from rfl,
      List.flatMap_cons, htail]
    congr 1
    simp only [netFlowChunk, specChunk, hvar]

/-- coeffOf distributes over concatenation of term lists. -/
theorem coeffOf_append (a b : List (ℚ × ℕ)) (j : ℕ) :
    coeffOf (a ++ b) j = coeffOf a j + coeffOf b j := by
  simp [coeffOf]

/-- Spec terms built from position n0 onward never mention an earlier
variable. -/
theorem coeffOf_spec_lt (node : ℤ) :
    ∀ (l : List Edge) (n0 j : ℕ), j < n0 →
      coeffOf ((List.enumFrom n0 l).flatMap (specChunk node)) j = 0 := by
  intro l
  induction l with
  | nil => intro n0 j _; rfl
  | cons e l ih =>
    intro n0 j h
    rw [show List.enumFrom n0 (e :: l) =
        (n0, e) :: List.enumFrom (n0 + 1) l from rfl,
      List.flatMap_cons, coeffOf_append, ih (n0 + 1) j (by omega)]
    have hnj : ¬(n0 = j) := by omega
    by_cases h1 : e.to_ = node <;> by_cases h2 : e.from_ = node <;>
      simp [specChunk, coeffOf, h1, h2, hnj]

/-- In the spec terms every variable's net coefficient is the indicator of
its edge entering the node minus the indicator of it leaving the node. -/
theorem coeffOf_spec_at (node : ℤ) :
    ∀ (l : List Edge) (n0 j : ℕ) (e : Edge), n0 ≤ j → l[j - n0]? = some e →
      coeffOf ((List.enumFrom n0 l).flatMap (specChunk node)) j =
        (if e.to_ = node then 1 else 0) -
        (if e.from_ = node then 1 else 0) := by
  intro l
  induction l with
  | nil => intro n0 j e _ h; simp at h
  | cons e2 l ih =>
    intro n0 j e hle hj
    rw [show List.enumFrom n0 (e2 :: l) =
        (n0, e2) :: List.enumFrom (n0 + 1) l from rfl,
      List.flatMap_cons, coeffOf_append]
    by_cases heq : j = n0
    · subst heq
      simp only [Nat.sub_self, List.getElem?_cons_zero, Option.some.injEq] at hj
      subst hj
      rw [coeffOf_spec_lt node l (j + 1) j (by omega), add_zero]
      by_cases h1 : e2.to_ = node <;> by_cases h2 : e2.from_ = node <;>
        simp [specChunk, coeffOf, h1, h2]
    · have hj2 : l[j - (n0 + 1)]? = some e := by
        have hshift : j - n0 = (j - (n0 + 1)) + 1 := by omega
        rw [hshift] at hj
        simpa using hj
      rw [ih (n0 + 1) j e (by omega) hj2]
      have hz : coeffOf (specChunk node (n0, e2)) j = 0 := by
        have hnj : ¬(n0 = j) := by omega
        by_cases h1 : e2.to_ = node <;> by_cases h2 : e2.from_ = node <;>
          simp [specChunk, coeffOf, h1, h2, hnj]
      rw [hz, zero_add]

/-- C2 as amended: the parallel-edge aliasing exhibited in
conservation_terms_not_per_edge_cex aside, the constraints are as claimed.
For every graph whose edges carry pairwise-distinct (from, to) pairs, solve
builds exactly one equality constraint per node 1..N, namely the spec's
per-edge sum (entering edges +1, leaving edges -1, a self-loop both, hence
zero net coefficient with no special-casing) with right side -balance(node),
while every edge - a self-loop included - keeps its own variable with its
cost in the objective; with parallel edges the constraint instead repeats
the last-inserted variable of the shared pair. -/
theorem conservation_constraints_distinct_pairs (g : NetworkFlow)
    (hkeys : (g.edges.map fun e => (e.from_, e.to_)).Nodup) :
    (formulate g).constraints.length = g.numNodes.toNat ∧
    (∀ k : ℕ, k < g.numNodes.toNat →
      (formulate g).constraints[k]? =
        some (specConservationTerms g.edges ((k : ℤ) + 1),
          -(getBalance g ((k : ℤ) + 1))) ∧
      ∀ (j : ℕ) (e : Edge), g.edges[j]? = some e →
        coeffOf (specConservationTerms g.edges ((k : ℤ) + 1)) j =
          (if e.to_ = (k : ℤ) + 1 then 1 else 0) -
          (if e.from_ = (k : ℤ) + 1 then 1 else 0)) ∧
    ∀ (j : ℕ) (e : Edge), g.edges[j]? = some e →
      (formulate g).objTerms[j]? = some (e.cost, j) := by
  have hc : (formulate g).constraints =
      (List.range g.numNodes.toNat).map fun (k : ℕ) =>
        (netFlowTerms g.edges ((k : ℤ) + 1), -(getBalance g ((k : ℤ) + 1))) :=
    rfl
  refine ⟨?_, ?_, ?_⟩
  · rw [hc, List.length_map, List.length_range]
  · intro k hk
    constructor
    · rw [hc, List.getElem?_map, List.getElem?_range hk, Option.map_some']
      rw [netFlowTerms_eq_spec hkeys]
    · intro j e hj
      have h := coeffOf_spec_at ((k : ℤ) + 1) g.edges 0 j e (Nat.zero_le j)
        (by simpa using hj)
      simpa [specConservationTerms] using h
  · intro j e hj
    have ho : (formulate g).objTerms =
        g.edges.enum.map fun p => (p.2.cost, p.1) := rfl
    rw [ho, List.getElem?_map, List.getElem?_enum, hj]
    rfl

/-- Witness for conservation_constraints_distinct_pairs at gSelfLoop (edge
1 -> 2 and a self-loop at 2): two constraints, the self-loop's variable has
net coefficient zero in its node's constraint, and that variable still
carries its cost 4 in the objective. -/
theorem conservation_constraints_distinct_pairs_witness :
    (formulate gSelfLoop).constraints.length = 2 ∧
    coeffOf (specConservationTerms gSelfLoop.edges 2) 1 = 0 ∧
    (formulate gSelfLoop).objTerms[1]? = some (4, 1) := by
  have h := conservation_constraints_distinct_pairs gSelfLoop (by decide)
  refine ⟨h.1, ?_, h.2.2 1 ⟨2, 2, 4⟩ (by decide)⟩
  have h2 := (h.2.1 1 (by decide)).2 1 ⟨2, 2, 4⟩ (by decide)
  norm_num at h2
  exact h2

/-- With pairwise-distinct pairs the variable map returns each edge's own
position for its pair. -/
theorem edgeVarIdx_of_nodup {edges : List Edge}
    (hkeys : (edges.map fun e => (e.from_, e.to_)).Nodup) {j : ℕ} {e : Edge}
    (hj : edges[j]? = some e) :
    edgeVarIdx edges e.from_ e.to_ = some j := by
  have hlt : j < edges.length := (List.getElem?_eq_some.mp hj).1
  have hget : edges[j] = e := by
    rw [List.getElem?_eq_getElem hlt] at hj
    exact Option.some.inj hj
  have hdecomp : edges = edges.take j ++ e :: edges.drop (j + 1) := by
    conv_lhs => rw [← List.take_append_drop j edges]
    rw [List.drop_eq_getElem_cons hlt, hget]
  have hlen : (edges.take j).length = j := by
    rw [List.length_take]
    omega
  calc edgeVarIdx edges e.from_ e.to_
      = edgeVarIdx (edges.take j ++ e :: edges.drop (j + 1)) e.from_ e.to_ := by
        rw [← hdecomp]
    _ = some (edges.take j).length :=
        edgeVarIdx_append_last (by rw [← hdecomp]; exact hkeys)
    _ = some j := by rw [hlen]

/-- C7 counterexample: at gParallel (edges 0 and 1 both 1 -> 2), with an
optimal engine report assigning edge 0's own variable the value 7 and
variable 1 the value 0, edge 0's solved value exceeds 1e-6 yet the flows map
stays empty: the extraction loop reads only the pair-keyed (last-inserted)
variable, never the edge's own. -/
theorem optimal_flows_drop_parallel_edge_value_cex :
    gParallel.edges[0]? = some ⟨1, 2, 3⟩ ∧
    (7 : ℚ) > flowTol ∧
    (solve gParallel (.optimal 0 fun i => if i = 0 then 7 else 0)).flows = [] := by
  refine ⟨by decide, by norm_num [flowTol], ?_⟩
  show extractFlows gParallel.edges (fun i => if i = 0 then 7 else 0) = []
  norm_num [extractFlows, extractStep, gParallel, edgeVarIdx, flowTol]

/-- C7 as amended: on an optimal engine outcome solve reports solved = true,
status "Optimal", the engine's objective value as totalCost, and a flows map
that, for each edge, holds the solved value of the LAST-inserted variable of
its (from, to) pair under that key exactly when the value exceeds 1e-6; for
graphs whose edges carry pairwise-distinct (from, to) pairs that variable is
the edge's own, as the original claim reads. -/
theorem solve_optimal_interpretation (g : NetworkFlow) (objVal : ℚ)
    (vals : ℕ → ℚ) :
    (solve g (.optimal objVal vals)).solved = true ∧
    (solve g (.optimal objVal vals)).status = "Optimal" ∧
    (solve g (.optimal objVal vals)).totalCost = objVal ∧
    (solve g (.optimal objVal vals)).flows = extractFlows g.edges vals ∧
    (∀ e ∈ g.edges, ∀ i : ℕ, edgeVarIdx g.edges e.from_ e.to_ = some i →
      flowsLookup (solve g (.optimal objVal vals)).flows (e.from_, e.to_) =
        if vals i > flowTol then some (vals i) else none) ∧
    ((g.edges.map fun e => (e.from_, e.to_)).Nodup →
      ∀ (j : ℕ) (e : Edge), g.edges[j]? = some e →
        flowsLookup (solve g (.optimal objVal vals)).flows (e.from_, e.to_) =
          if vals j > flowTol then some (vals j) else none) := by
  have hmain : ∀ e ∈ g.edges, ∀ i : ℕ,
      edgeVarIdx g.edges e.from_ e.to_ = some i →
      flowsLookup (extractFlows g.edges vals) (e.from_, e.to_) =
        if vals i > flowTol then some (vals i) else none := by
    intro e he i hi
    by_cases hv : vals i > flowTol
    · rw [if_pos hv]
      exact extract_foldl_write hi hv g.edges [] ⟨e, he, rfl⟩
    · rw [if_neg hv]
      apply extract_foldl_none ?_ g.edges [] rfl
      intro i2 hi2
      rw [hi2] at hi
      injection hi with hi
      rw [hi]
      exact hv
  refine ⟨rfl, rfl, rfl, rfl, hmain, ?_⟩
  intro hkeys j e hj
  exact hmain e (List.getElem?_mem hj) j (edgeVarIdx_of_nodup hkeys hj)

/-- Witness for solve_optimal_interpretation: at gSimple the flow 10 on edge
1 -> 2 exceeds 1e-6 and is recorded while the all-zero valuation records
nothing, and at gSelfLoop (distinct pairs) the self-loop edge's own value 5
is recorded under (2, 2) through the distinct-pairs reading. -/
theorem solve_optimal_interpretation_witness :
    flowsLookup (solve gSimple (.optimal 30 fun _ => 10)).flows (1, 2) =
      some 10 ∧
    flowsLookup (solve gSimple (.optimal 0 fun _ => 0)).flows (1, 2) = none ∧
    flowsLookup
      (solve gSelfLoop (.optimal 20 fun i => if i = 1 then 5 else 0)).flows
      (2, 2) = some 5 := by
  refine ⟨?_, ?_, ?_⟩
  · have h := (solve_optimal_interpretation gSimple 30 fun _ => 10).2.2.2.2.1
      ⟨1, 2, 3⟩ (by decide) 0 (by decide)
    rw [h, if_pos (by norm_num [flowTol])]
  · have h := (solve_optimal_interpretation gSimple 0 fun _ => 0).2.2.2.2.1
      ⟨1, 2, 3⟩ (by decide) 0 (by decide)
    rw [h, if_neg (by norm_num [flowTol])]
  · have h := (solve_optimal_interpretation gSelfLoop 20
        fun i => if i = 1 then (5 : ℚ) else 0).2.2.2.2.2
      (by decide) 1 ⟨2, 2, 4⟩ (by decide)
    rw [h, if_pos (by norm_num [flowTol])]
    norm_num

end NetFlow
